import Mathlib

/-!
Verification development for the TypeScript declaration-file lexer and
recursive-descent parser in `misc/dom-gen/run.py`.

The Python code scans a fixed string `s` with a mutable index `i`.  Here the
scanner state is the pair (pos, rest) with the invariant `rest = s.drop pos`;
Python slices `s[a:b]` become `(rest.take _)`-style expressions on the
remaining characters, and `s.count('\n', 0, p) + 1` becomes `lineOf s p`.
Loops are modelled with an explicit fuel argument; fuel exhaustion returns the
distinguished error `Err.fuelOut`, which never occurs for the generous fuel
the entry points supply on the inputs considered here.  Python exceptions are
modelled as `Except` errors: the lexer message with a line number is
`Err.lexError`, the parser message with a line number is `Err.parseError`,
and an out-of-range `tokens[i]` access (a raw Python `IndexError` with no
line diagnostic) is `Err.indexError`.  Character classes (`isspace`,
`isdigit`, `isalpha`, `isalnum`) are modelled with their ASCII meaning, which
agrees with Python on the ASCII-compatible inputs in scope.
-/

/-- A lexical token: `i` is the 0-based character offset of its first
character, `type` is the token kind (symbols use their own text), `value`
is the matched substring. Mirrors `class Token(typing.NamedTuple)`. -/
structure Token where
  i : Nat
  type : String
  value : String
deriving Repr, DecidableEq

/-- Failure modes of the lexer and parser (Python raises `Exception`;
an out-of-range list access raises `IndexError`, carried here as
`indexError`; `fuelOut` is an artifact of the fueled model). -/
inductive Err where
  | lexError (line : Nat)
  | parseError (line : Nat)
  | indexError
  | fuelOut
deriving Repr, DecidableEq

/-- 1-based line number of character offset `pos` in source `s`:
Python `s.count('\n', 0, pos) + 1`. -/
def lineOf (s : List Char) (pos : Nat) : Nat :=
  (s.take pos).count '\n' + 1

/-- The symbol catalog `SYMBOLS`, pre-sorted in reverse lexicographic order
exactly as Python `sorted(SYMBOLS, reverse=True)` produces, so that the
first prefix match is the longest one. -/
def SYMBOLS_REVERSE_SORTED : List String :=
  ["\x7d", "||", "|", "\x7b", "]", "[", "?", ">", "=>", "=", "<",
   ";", ":", "...", ".", "-", ",", "+", ")", "(", "&&", "&"]

/-- Number of characters the scan `while i < len(s) and not
s.startswith('*/', i): i += 1` advances, starting on `r`. -/
def findStarSlash : List Char → Nat
  | [] => 0
  | c :: cs => if c == '*' && cs.head? == some '/' then 0 else findStarSlash cs + 1

/-- Whether the two-character sequence `*/` occurs in `r` (used only to state
side conditions of theorems, not by the embedded code). -/
def containsStarSlash : List Char → Bool
  | [] => false
  | c :: cs => (c == '*' && cs.head? == some '/') || containsStarSlash cs

/-- Number of characters the string-literal scan consumes after the opening
quote `q`: `while i < len(s) and s[i] != c: if s[i] == '\\': i += 1; i += 1`.
Note the count can overshoot the end of input by one, as in Python. -/
def scanStringLen (q : Char) : List Char → Nat
  | [] => 0
  | [c] => if c == q then 0 else if c == '\\' then 2 else 1
  | c :: c2 :: cs =>
    if c == q then 0
    else if c == '\\' then 2 + scanStringLen q cs
    else 1 + scanStringLen q (c2 :: cs)

/-- Number of characters of the NUMBER token starting at `r` (whose head is a
digit): optional `0x` prefix, digit run, optional `.` plus digit run. -/
def numberLen (r : List Char) : Nat :=
  let p := if "0x".toList.isPrefixOf r then 2 else 0
  let r1 := r.drop p
  let d1 := (r1.takeWhile Char.isDigit).length
  let r2 := r1.drop d1
  match r2 with
  | '.' :: r3 => p + d1 + 1 + (r3.takeWhile Char.isDigit).length
  | _ => p + d1

/-- The leading skip loop of `lex`: whitespace, `//` line comments, and
non-doc block comments (`/**/`, or `/*` not followed by a second `*`).
Returns the advanced (pos, rest). A doc comment `/**` is NOT skipped here. -/
def skipTrivia : Nat → Nat → List Char → Nat × List Char
  | 0, pos, rest => (pos, rest)
  | fuel+1, pos, rest =>
    match rest with
    | [] => (pos, [])
    | c :: cs =>
      if c.isWhitespace then skipTrivia fuel (pos + 1) cs
      else if "//".toList.isPrefixOf rest then
        let k := (rest.takeWhile (fun ch => ch ≠ '\n')).length
        skipTrivia fuel (pos + k) (rest.drop k)
      else if "/**/".toList.isPrefixOf rest
          || ("/*".toList.isPrefixOf rest && !("/**".toList.isPrefixOf rest)) then
        let k := 2 + findStarSlash (rest.drop 2) + 2
        skipTrivia fuel (pos + k) (rest.drop k)
      else (pos, rest)

/-- One round of `lex` per fuel unit: skip trivia, then emit one token (or
the final EOF token at position `s.length`), mirroring the Python `while
True` loop body branch for branch and in the same order. -/
def lexLoop (s : List Char) : Nat → Nat → List Char → Except Err (List Token)
  | 0, _, _ => .error .fuelOut
  | fuel+1, pos0, rest0 =>
    match skipTrivia (rest0.length + 1) pos0 rest0 with
    | (_, []) => .ok [⟨s.length, "EOF", ""⟩]
    | (pos, c :: cs) =>
      if "/**".toList.isPrefixOf (c :: cs) then
        -- doc comment: value is s[start+3 : i-2]
        (lexLoop s fuel (pos + (2 + findStarSlash ((c :: cs).drop 2) + 2))
            ((c :: cs).drop (2 + findStarSlash ((c :: cs).drop 2) + 2))).map
          (⟨pos, "COMMENT",
            ⟨((c :: cs).drop 3).take (findStarSlash ((c :: cs).drop 2) - 1)⟩⟩ :: ·)
      else if c.isDigit then
        (lexLoop s fuel (pos + numberLen (c :: cs))
            ((c :: cs).drop (numberLen (c :: cs)))).map
          (⟨pos, "NUMBER", ⟨(c :: cs).take (numberLen (c :: cs))⟩⟩ :: ·)
      else if c.isAlpha || c == '_' then
        (lexLoop s fuel
            (pos + ((c :: cs).takeWhile (fun ch => ch.isAlphanum || ch == '_')).length)
            ((c :: cs).drop
              ((c :: cs).takeWhile (fun ch => ch.isAlphanum || ch == '_')).length)).map
          (⟨pos, "NAME",
            ⟨(c :: cs).take
              ((c :: cs).takeWhile (fun ch => ch.isAlphanum || ch == '_')).length⟩⟩ :: ·)
      else if c == '`' || c == '"' || c == '\'' then
        (lexLoop s fuel (pos + (scanStringLen c cs + 2))
            ((c :: cs).drop (scanStringLen c cs + 2))).map
          (⟨pos, "STRING", ⟨(c :: cs).take (scanStringLen c cs + 2)⟩⟩ :: ·)
      else
        match SYMBOLS_REVERSE_SORTED.find? (fun sym => sym.toList.isPrefixOf (c :: cs)) with
        | some sym =>
          (lexLoop s fuel (pos + sym.length) ((c :: cs).drop sym.length)).map
            (⟨pos, sym, sym⟩ :: ·)
        | none => .error (.lexError (lineOf s pos))

/-- `lex(s)`: tokenize the whole input, ending with the synthetic EOF token. -/
def lex (str : String) : Except Err (List Token) :=
  lexLoop str.data (str.data.length + 1) 0 str.data

/-- A type expression node: `args = none` for atomic nodes, `some l` for
compound nodes. Mirrors `class TypeExpression(typing.NamedTuple)`. -/
inductive TypeExpression where
  | mk (i : Nat) (name : String) (args : Option (List TypeExpression))

def TypeExpression.i : TypeExpression → Nat
  | ⟨i, _, _⟩ => i

def TypeExpression.name : TypeExpression → String
  | ⟨_, n, _⟩ => n

def TypeExpression.args : TypeExpression → Option (List TypeExpression)
  | ⟨_, _, a⟩ => a

/-- A function parameter. Mirrors `class Parameter(typing.NamedTuple)`. -/
structure Parameter where
  i : Nat
  isVariadic : Bool
  name : String
  isOptional : Bool
  type : TypeExpression

/-- The five declaration kinds. Mirrors the Python `Declaration` union of
NamedTuples (interface bodies are parsed and discarded, so
`interfaceDef` keeps only the extends list). -/
inductive Declaration where
  | interfaceDef (i : Nat) (comment : Option Token) (name : String)
      (extendsList : List TypeExpression)
  | typeAlias (i : Nat) (comment : Option Token) (name : String)
      (type : TypeExpression)
  | variableDecl (i : Nat) (comment : Option Token) (name : String)
      (type : TypeExpression)
  | namespaceDecl (i : Nat) (comment : Option Token) (name : String)
      (declarations : List Declaration)
  | functionDecl (i : Nat) (comment : Option Token) (name : String)
      (parameters : List Parameter) (returnType : TypeExpression)

/-- Python `at(type, value=None)`: token at cursor `i` matches. -/
def atTok (toks : Array Token) (i : Nat) (ty : String) (v : Option String) : Bool :=
  match toks[i]? with
  | some t => t.type == ty && (match v with | none => true | some s => t.value == s)
  | none => false

/-- Python `next()`: return token at cursor and advance; `IndexError` when
the cursor is past the end. -/
def nextTok (toks : Array Token) (i : Nat) : Except Err (Token × Nat) :=
  match toks[i]? with
  | some t => .ok (t, i + 1)
  | none => .error .indexError

/-- Python `consume(type, value=None)`: advance over a matching token,
returning it; otherwise stay put and return `none`. -/
def consumeTok (toks : Array Token) (i : Nat) (ty : String) (v : Option String) :
    Option Token × Nat :=
  match toks[i]? with
  | some t =>
    if t.type == ty && (match v with | none => true | some s => t.value == s) then
      (some t, i + 1)
    else (none, i)
  | none => (none, i)

/-- Python `expect(type, value=None)`: like consume, but on mismatch raise a
parse error naming the 1-based line of the offending token (itself an
`IndexError` when the cursor is past the end, as in Python). -/
def expectTok (s : List Char) (toks : Array Token) (i : Nat) (ty : String)
    (v : Option String) : Except Err (Token × Nat) :=
  match consumeTok toks i ty v with
  | (some t, j) => .ok (t, j)
  | (none, _) =>
    match toks[i]? with
    | some t => .error (.parseError (lineOf s t.i))
    | none => .error .indexError

def isOpener (ty : String) : Bool :=
  ty == "(" || ty == "\x7b" || ty == "[" || ty == "<"

def isCloser (ty : String) : Bool :=
  ty == ")" || ty == "\x7d" || ty == "]" || ty == ">"

/-- The depth loop of `skip()` after the first opener was consumed:
`while i < len(tokens) and depth > 0: ...`. -/
def skipDepth (toks : Array Token) : Nat → Nat → Nat → Nat
  | 0, _, i => i
  | fuel+1, depth, i =>
    if depth = 0 then i
    else
      match toks[i]? with
      | none => i
      | some t =>
        if isOpener t.type then skipDepth toks fuel (depth + 1) (i + 1)
        else if isCloser t.type then skipDepth toks fuel (depth - 1) (i + 1)
        else skipDepth toks fuel depth (i + 1)

/-- Python `skip()`: bracket-depth skip from an opener, or consume a single
token (which can raise `IndexError` past the end). -/
def skipTok (toks : Array Token) (i : Nat) : Except Err Nat :=
  let opener :=
    match toks[i]? with
    | some t => isOpener t.type
    | none => false
  if opener then .ok (skipDepth toks (toks.size + 1) 1 (i + 1))
  else (nextTok toks i).map (·.2)

/-- The depth loop of `parseTypeParameters()`, counting only `<` and `>`. -/
def skipAngle (toks : Array Token) : Nat → Nat → Nat → Nat
  | 0, _, i => i
  | fuel+1, depth, i =>
    if depth = 0 then i
    else
      match toks[i]? with
      | none => i
      | some t =>
        if t.type == "<" then skipAngle toks fuel (depth + 1) (i + 1)
        else if t.type == ">" then skipAngle toks fuel (depth - 1) (i + 1)
        else skipAngle toks fuel depth (i + 1)

/-- Python `parseTypeParameters()`: `expect('<')` then the `<`/`>` depth loop. -/
def parseTypeParameters (s : List Char) (toks : Array Token) (i : Nat) :
    Except Err Nat :=
  (expectTok s toks i "<" none).map (fun p => skipAngle toks (toks.size + 1) 1 p.2)

/-- Python `atFunctionType()`: lookahead — from `(`, skip the balanced group
and test whether `=>` follows. -/
def atFunctionType (toks : Array Token) (i : Nat) : Bool :=
  match toks[i]? with
  | some t =>
    t.type == "(" && atTok toks (skipDepth toks (toks.size + 1) 1 (i + 1)) "=>" none
  | none => false

/-- The flattening in `parseTypeExpression`:
`(te.args or []) if te.name == TAG else [te]`. -/
def flattenAs (tag : String) (te : TypeExpression) : List TypeExpression :=
  if te.name == tag then te.args.getD [] else [te]

/-- Call descriptor for the mutually recursive type-expression routines of
the Python parser. The mutual recursion is modelled as a single fueled step
function (`teStep`) over these descriptors so that evaluation stays
definitional; the wrappers below restore the source function names. -/
inductive TECall where
  | primary (i : Nat)
  | typeExpr (i : Nat)
  | suffix (te : TypeExpression) (i : Nat)
  | tupleArgs (i : Nat) (acc : List TypeExpression)
  | param (i : Nat)
  | paramsLoop (i : Nat) (acc : List Parameter)
  | params (i : Nat)

/-- Result of a `TECall`: each routine returns its value and the new cursor. -/
inductive TERes where
  | te (v : TypeExpression) (j : Nat)
  | tes (v : List TypeExpression) (j : Nat)
  | par (v : Parameter) (j : Nat)
  | pars (v : List Parameter) (j : Nat)

/-- One step of the type-expression parser; each Python routine is one
`TECall` case, translated branch for branch:

* `.primary` is `parsePrimaryTypeExpression()` — string-literal types;
  `typeof`/`keyof` (note: the Python code folds `tokens[i].type`, which is
  the literal string NAME, into the synthetic name — not the keyword text —
  and appends a `.Member` name without the dot); bare names with skipped
  generic arguments; bracketed tuples; function types; object-literal
  `UNKNOWN(...)` escapes; parenthesized grouping; otherwise a parse error
  naming the offending line.
* `.typeExpr` is `parseTypeExpression()`: a primary then the operator loop.
* `.suffix` is the `while True` operator loop of `parseTypeExpression()`:
  `[]`/`[Index]` postfix, then `|` and `&` whose right operand is a full
  recursive `parseTypeExpression()` call, flattening Union/Intersect
  operands by name: `(te.args or []) if te.name == TAG else [te]`.
* `.param` is `parseParameter()`: `...? Name ?? : TypeExpression`.
* `.paramsLoop`/`.params` are `parseParameters()` with its element loop.

The tag mismatch arms (`throw .fuelOut`) are unreachable: every call site
matches the constructor its callee actually returns. -/
def teStep (s : List Char) (toks : Array Token) : Nat → TECall → Except Err TERes
  | 0, _ => .error .fuelOut
  | fuel+1, .primary i => do
    if atTok toks i "STRING" none then
      let (t, j) ← expectTok s toks i "STRING" none
      return .te ⟨t.i, t.value, none⟩ j
    else if atTok toks i "NAME" (some "typeof") || atTok toks i "NAME" (some "keyof") then
      match toks[i]? with
      | none => throw .indexError
      | some t0 =>
        let kind := t0.type
        let (t1, j) ← nextTok toks i
        let (t2, j2) ← expectTok s toks j "NAME" none
        let name0 := kind ++ "(" ++ t2.value ++ ")"
        match consumeTok toks j2 "." none with
        | (some _, j3) =>
          let (t3, j4) ← expectTok s toks j3 "NAME" none
          return .te ⟨t1.i, name0 ++ t3.value, none⟩ j4
        | (none, j3) => return .te ⟨t1.i, name0, none⟩ j3
    else if atTok toks i "NAME" none then
      let (t, j) ← expectTok s toks i "NAME" none
      if atTok toks j "<" none then
        let j2 ← skipTok toks j
        return .te ⟨t.i, t.value, none⟩ j2
      else
        return .te ⟨t.i, t.value, none⟩ j
    else if atTok toks i "[" none then
      let (t, j) ← expectTok s toks i "[" none
      let r ← teStep s toks fuel (.tupleArgs j [])
      match r with
      | .tes args j2 => do
        let (_, j3) ← expectTok s toks j2 "]" none
        return .te ⟨t.i, "TUPLE", some args⟩ j3
      | _ => throw .fuelOut
    else if atFunctionType toks i then
      match toks[i]? with
      | none => throw .indexError
      | some t0 =>
        let r ← teStep s toks fuel (.params i)
        match r with
        | .pars _ j => do
          let (_, j2) ← expectTok s toks j "=>" none
          let r2 ← teStep s toks fuel (.typeExpr j2)
          match r2 with
          | .te ret j3 => return .te ⟨t0.i, "Function(UnknownArgs)", some [ret]⟩ j3
          | _ => throw .fuelOut
        | _ => throw .fuelOut
    else if atTok toks i "\x7b" none then
      match toks[i]? with
      | none => throw .indexError
      | some t0 =>
        let j ← skipTok toks i
        match toks[j]? with
        | none => throw .indexError
        | some tj =>
          let raw : String := ⟨(s.take tj.i).drop t0.i⟩
          return .te ⟨t0.i, "UNKNOWN(" ++ raw ++ ")", none⟩ j
    else if atTok toks i "(" none then
      let (_, j) ← nextTok toks i
      let r ← teStep s toks fuel (.typeExpr j)
      match r with
      | .te te j2 => do
        let (_, j3) ← expectTok s toks j2 ")" none
        return .te te j3
      | _ => throw .fuelOut
    else
      match toks[i]? with
      | some t => throw (.parseError (lineOf s t.i))
      | none => throw .indexError
  | fuel+1, .typeExpr i => do
    let r ← teStep s toks fuel (.primary i)
    match r with
    | .te te j => teStep s toks fuel (.suffix te j)
    | _ => throw .fuelOut
  | fuel+1, .suffix te i =>
    match consumeTok toks i "[" none with
    | (some _, j) =>
      match consumeTok toks j "]" none with
      | (some _, j2) => teStep s toks fuel (.suffix ⟨te.i, "ARRAY", some [te]⟩ j2)
      | (none, _) => do
        let r ← teStep s toks fuel (.typeExpr j)
        match r with
        | .te index j3 => do
          let (_, j4) ← expectTok s toks j3 "]" none
          teStep s toks fuel (.suffix ⟨te.i, "SUBSCRIPT", some [te, index]⟩ j4)
        | _ => throw .fuelOut
    | (none, _) =>
      match consumeTok toks i "|" none with
      | (some _, j) => do
        let r ← teStep s toks fuel (.typeExpr j)
        match r with
        | .te rhs j2 =>
          teStep s toks fuel
            (.suffix ⟨te.i, "Union", some (flattenAs "Union" te ++ flattenAs "Union" rhs)⟩ j2)
        | _ => throw .fuelOut
      | (none, _) =>
        match consumeTok toks i "&" none with
        | (some _, j) => do
          let r ← teStep s toks fuel (.typeExpr j)
          match r with
          | .te rhs j2 =>
            teStep s toks fuel
              (.suffix ⟨te.i, "Intersect",
                some (flattenAs "Intersect" te ++ flattenAs "Intersect" rhs)⟩ j2)
          | _ => throw .fuelOut
        | (none, _) => .ok (.te te i)
  | fuel+1, .tupleArgs i acc => do
    if !(atTok toks i "EOF" none) && !(atTok toks i "]" none) then
      let r ← teStep s toks fuel (.typeExpr i)
      match r with
      | .te te j =>
        match consumeTok toks j "," none with
        | (some _, j2) => teStep s toks fuel (.tupleArgs j2 (acc ++ [te]))
        | (none, j2) => return .tes (acc ++ [te]) j2
      | _ => throw .fuelOut
    else return .tes acc i
  | fuel+1, .param i => do
    match toks[i]? with
    | none => throw .indexError
    | some t0 =>
      let (vOpt, j) := consumeTok toks i "..." none
      let (t1, j2) ← expectTok s toks j "NAME" none
      let (oOpt, j3) := consumeTok toks j2 "?" none
      let (_, j4) ← expectTok s toks j3 ":" none
      let r ← teStep s toks fuel (.typeExpr j4)
      match r with
      | .te ty j5 => return .par ⟨t0.i, vOpt.isSome, t1.value, oOpt.isSome, ty⟩ j5
      | _ => throw .fuelOut
  | fuel+1, .paramsLoop i acc => do
    if !(atTok toks i "EOF" none) && !(atTok toks i ")" none) then
      let r ← teStep s toks fuel (.param i)
      match r with
      | .par p j =>
        match consumeTok toks j "," none with
        | (some _, j2) => teStep s toks fuel (.paramsLoop j2 (acc ++ [p]))
        | (none, j2) => return .pars (acc ++ [p]) j2
      | _ => throw .fuelOut
    else return .pars acc i
  | fuel+1, .params i => do
    let (_, j) ← expectTok s toks i "(" none
    let r ← teStep s toks fuel (.paramsLoop j [])
    match r with
    | .pars ps j2 => do
      let (_, j3) ← expectTok s toks j2 ")" none
      return .pars ps j3
    | _ => throw .fuelOut

/-- Python `parsePrimaryTypeExpression()` (wrapper over `teStep`). -/
def parsePrimaryTypeExpression (s : List Char) (toks : Array Token)
    (fuel i : Nat) : Except Err (TypeExpression × Nat) :=
  match teStep s toks fuel (.primary i) with
  | .ok (.te te j) => .ok (te, j)
  | .ok _ => .error .fuelOut
  | .error e => .error e

/-- Python `parseTypeExpression()` (wrapper over `teStep`). -/
def parseTypeExpression (s : List Char) (toks : Array Token)
    (fuel i : Nat) : Except Err (TypeExpression × Nat) :=
  match teStep s toks fuel (.typeExpr i) with
  | .ok (.te te j) => .ok (te, j)
  | .ok _ => .error .fuelOut
  | .error e => .error e

/-- Python `parseParameters()` (wrapper over `teStep`). -/
def parseParameters (s : List Char) (toks : Array Token)
    (fuel i : Nat) : Except Err (List Parameter × Nat) :=
  match teStep s toks fuel (.params i) with
  | .ok (.pars ps j) => .ok (ps, j)
  | .ok _ => .error .fuelOut
  | .error e => .error e

/-- Python `parseMemberDeclaration()`:
`while not at('}') and not at(';'): skip()` then `consume(';')`.
Note the loop does not test EOF, so an unterminated interface body walks
past the EOF token and hits an `IndexError` inside `skip()`. -/
def parseMemberLoop (toks : Array Token) : Nat → Nat → Except Err Nat
  | 0, _ => .error .fuelOut
  | fuel+1, i =>
    if !(atTok toks i "\x7d" none) && !(atTok toks i ";" none) then
      match skipTok toks i with
      | .ok j => parseMemberLoop toks fuel j
      | .error e => .error e
    else .ok (consumeTok toks i ";" none).2

/-- The member loop of `parseInterfaceDefinition`:
`while not at('EOF') and not at('}'): parseMemberDeclaration()`. -/
def parseInterfaceBodyLoop (toks : Array Token) : Nat → Nat → Except Err Nat
  | 0, _ => .error .fuelOut
  | fuel+1, i =>
    if !(atTok toks i "EOF" none) && !(atTok toks i "\x7d" none) then
      match parseMemberLoop toks (toks.size + 1) i with
      | .ok j => parseInterfaceBodyLoop toks fuel j
      | .error e => .error e
    else .ok i

/-- The `extends` clause loop of `parseInterfaceDefinition`. -/
def parseExtendsLoop (s : List Char) (toks : Array Token) :
    Nat → Nat → List TypeExpression → Except Err (List TypeExpression × Nat)
  | 0, _, _ => .error .fuelOut
  | fuel+1, i, acc => do
    let (te, j) ← parseTypeExpression s toks fuel i
    match consumeTok toks j "," none with
    | (some _, j2) => parseExtendsLoop s toks fuel j2 (acc ++ [te])
    | (none, j2) => return (acc ++ [te], j2)

/-- Python `parseInterfaceDefinition()`. `lc` is the pending doc comment
(the `last_comment` closure variable at the call). -/
def parseInterfaceDefinitionD (s : List Char) (toks : Array Token)
    (fuel i : Nat) (lc : Option Token) : Except Err (Declaration × Nat) := do
  let (t0, j) ← expectTok s toks i "NAME" (some "interface")
  let (t1, j2) ← expectTok s toks j "NAME" none
  let j3 ← if atTok toks j2 "<" none then parseTypeParameters s toks j2 else pure j2
  let (exts, j5) ←
    match consumeTok toks j3 "NAME" (some "extends") with
    | (some _, j4) => parseExtendsLoop s toks fuel j4 []
    | (none, j4) => pure (([] : List TypeExpression), j4)
  let (_, j6) ← expectTok s toks j5 "\x7b" none
  let j7 ← parseInterfaceBodyLoop toks (toks.size + 1) j6
  let (_, j8) ← expectTok s toks j7 "\x7d" none
  return (.interfaceDef t0.i lc t1.value exts, j8)

/-- Python `parseTypeAlias()`: `type Name<...>? = TypeExpression ;`
(the type-parameter list is discarded with the generic `skip()`). -/
def parseTypeAliasD (s : List Char) (toks : Array Token) (fuel i : Nat)
    (lc : Option Token) : Except Err (Declaration × Nat) := do
  let (t0, j) ← expectTok s toks i "NAME" (some "type")
  let (t1, j2) ← expectTok s toks j "NAME" none
  let j3 ← if atTok toks j2 "<" none then skipTok toks j2 else pure j2
  let (_, j4) ← expectTok s toks j3 "=" none
  let (te, j5) ← parseTypeExpression s toks fuel j4
  let (_, j6) ← expectTok s toks j5 ";" none
  return (.typeAlias t0.i lc t1.value te, j6)

/-- Python `parseVariableDeclaration()`: `(var|const) Name : TypeExpression ;`. -/
def parseVariableDeclarationD (s : List Char) (toks : Array Token) (fuel i : Nat)
    (lc : Option Token) : Except Err (Declaration × Nat) := do
  match toks[i]? with
  | none => throw .indexError
  | some t0 =>
    let (cOpt, j0) := consumeTok toks i "NAME" (some "const")
    let j ←
      match cOpt with
      | some _ => pure j0
      | none => (expectTok s toks i "NAME" (some "var")).map (·.2)
    let (t1, j2) ← expectTok s toks j "NAME" none
    let (_, j3) ← expectTok s toks j2 ":" none
    let (te, j4) ← parseTypeExpression s toks fuel j3
    let (_, j5) ← expectTok s toks j4 ";" none
    return (.variableDecl t0.i lc t1.value te, j5)

/-- Python `parseFunctionDeclaration()`. -/
def parseFunctionDeclarationD (s : List Char) (toks : Array Token) (fuel i : Nat)
    (lc : Option Token) : Except Err (Declaration × Nat) := do
  let (t0, j) ← expectTok s toks i "NAME" (some "function")
  let (t1, j2) ← expectTok s toks j "NAME" none
  let j3 ← if atTok toks j2 "<" none then skipTok toks j2 else pure j2
  let (ps, j4) ← parseParameters s toks fuel j3
  let (_, j5) ← expectTok s toks j4 ":" none
  let (ret, j6) ← parseTypeExpression s toks fuel j5
  let (_, j7) ← expectTok s toks j6 ";" none
  return (.functionDecl t0.i lc t1.value ps ret, j7)

/-- Call descriptor for the mutually recursive declaration routines
(`parseDeclaration` / `parseNamespaceDeclaration` and its member loop),
modelled as the single fueled step function `dStep`. -/
inductive DCall where
  | decl (i : Nat) (lc : Option Token)
  | nsDecl (i : Nat) (lc : Option Token)
  | nsBody (i : Nat) (lc : Option Token) (acc : List Declaration)

/-- Result of a `DCall`. -/
inductive DRes where
  | d (v : Declaration) (j : Nat)
  | ds (v : List Declaration) (j : Nat)

/-- One step of the declaration parser:

* `.decl` is `parseDeclaration()`: optional `declare`, then keyword
  dispatch; an unrecognized keyword raises a parse error with its line.
* `.nsDecl` is `parseNamespaceDeclaration()`.
* `.nsBody` is its member loop, which absorbs at most ONE leading COMMENT
  token per member (`if`, not `while`); the pending comment `lc` is not
  reset on entry, so a comment pending from before the namespace is still
  pending for the first member; after each member it becomes `none`. -/
def dStep (s : List Char) (toks : Array Token) : Nat → DCall → Except Err DRes
  | 0, _ => .error .fuelOut
  | fuel+1, .decl i0 lc =>
    let i := (consumeTok toks i0 "NAME" (some "declare")).2
    if atTok toks i "NAME" (some "interface") then
      match parseInterfaceDefinitionD s toks fuel i lc with
      | .ok (d, j) => .ok (.d d j)
      | .error e => .error e
    else if atTok toks i "NAME" (some "type") then
      match parseTypeAliasD s toks fuel i lc with
      | .ok (d, j) => .ok (.d d j)
      | .error e => .error e
    else if atTok toks i "NAME" (some "var") || atTok toks i "NAME" (some "const") then
      match parseVariableDeclarationD s toks fuel i lc with
      | .ok (d, j) => .ok (.d d j)
      | .error e => .error e
    else if atTok toks i "NAME" (some "namespace") then
      dStep s toks fuel (.nsDecl i lc)
    else if atTok toks i "NAME" (some "function") then
      match parseFunctionDeclarationD s toks fuel i lc with
      | .ok (d, j) => .ok (.d d j)
      | .error e => .error e
    else
      match toks[i]? with
      | some t => .error (.parseError (lineOf s t.i))
      | none => .error .indexError
  | fuel+1, .nsDecl i lc => do
    match toks[i]? with
    | none => throw .indexError
    | some t0 =>
      let (_, j) ← expectTok s toks i "NAME" (some "namespace")
      let (t1, j2) ← expectTok s toks j "NAME" none
      let (_, j3) ← expectTok s toks j2 "\x7b" none
      let r ← dStep s toks fuel (.nsBody j3 lc [])
      match r with
      | .ds ds j4 => do
        let (_, j5) ← expectTok s toks j4 "\x7d" none
        return .d (.namespaceDecl t0.i lc t1.value ds) j5
      | _ => throw .fuelOut
  | fuel+1, .nsBody i lc acc =>
    if !(atTok toks i "EOF" none) && !(atTok toks i "\x7d" none) then
      let (lc2, j) :=
        match consumeTok toks i "COMMENT" none with
        | (some t, j2) => (some t, j2)
        | (none, j2) => (lc, j2)
      match dStep s toks fuel (.decl j lc2) with
      | .ok (.d d j3) => dStep s toks fuel (.nsBody j3 none (acc ++ [d]))
      | .ok _ => .error .fuelOut
      | .error e => .error e
    else .ok (.ds acc i)

/-- Python `parseDeclaration()` (wrapper over `dStep`). -/
def parseDeclarationD (s : List Char) (toks : Array Token) (fuel i : Nat)
    (lc : Option Token) : Except Err (Declaration × Nat) :=
  match dStep s toks fuel (.decl i lc) with
  | .ok (.d d j) => .ok (d, j)
  | .ok _ => .error .fuelOut
  | .error e => .error e

/-- The top-level loop of `parse()`: absorb a run of COMMENT tokens keeping
the most recent, stop at EOF, otherwise parse one declaration and clear
the pending comment. Reading `tokens[i].type` with the cursor past the end
raises `IndexError`, as in Python. -/
def parseTop (s : List Char) (toks : Array Token) :
    Nat → Nat → Option Token → List Declaration → Except Err (List Declaration)
  | 0, _, _, _ => .error .fuelOut
  | fuel+1, i, lc, acc =>
    if !(atTok toks i "EOF" none) then
      match toks[i]? with
      | none => .error .indexError
      | some t =>
        if t.type == "COMMENT" then parseTop s toks fuel (i + 1) (some t) acc
        else
          match parseDeclarationD s toks fuel i lc with
          | .ok (d, j) => parseTop s toks fuel j none (acc ++ [d])
          | .error e => .error e
    else .ok acc

/-- Python `parse(s)`: lex, then run the top-level declaration loop. -/
def parse (str : String) : Except Err (List Declaration) :=
  match lex str with
  | .error e => .error e
  | .ok ts =>
    let toks := ts.toArray
    parseTop str.data toks (10 * toks.size + 100) 0 none []

/-- The flattening invariant: no node named `Union` has an immediate arg
named `Union`, and no node named `Intersect` has an immediate arg named
`Intersect`, recursively throughout the tree. -/
inductive NoNU : TypeExpression → Prop where
  | atom : ∀ i n, NoNU ⟨i, n, none⟩
  | comp : ∀ i n l, (∀ a ∈ l, NoNU a) →
      (n = "Union" → ∀ a ∈ l, a.name ≠ "Union") →
      (n = "Intersect" → ∀ a ∈ l, a.name ≠ "Intersect") →
      NoNU ⟨i, n, some l⟩

/-- Precondition of a `TECall` for the flattening invariant: the running
`te` of the suffix loop, and every accumulated element, already satisfy it. -/
def teIn : TECall → Prop
  | .suffix te _ => NoNU te
  | .tupleArgs _ acc => ∀ a ∈ acc, NoNU a
  | _ => True

/-- Postcondition of a `TERes` for the flattening invariant. -/
def teOKRes : TERes → Prop
  | .te v _ => NoNU v
  | .tes l _ => ∀ a ∈ l, NoNU a
  | .par _ _ => True
  | .pars _ _ => True

theorem exceptBindOk {ε α β : Type} {x : Except ε α} {f : α → Except ε β} {b : β} :
    (x >>= f) = .ok b ↔ ∃ a, x = .ok a ∧ f a = .ok b := by
  cases x <;> simp [Bind.bind, Except.bind]

theorem exceptPureOk {ε α : Type} {a b : α} :
    (pure a : Except ε α) = .ok b ↔ a = b := by
  change Except.ok a = Except.ok b ↔ a = b
  constructor
  · intro h; injection h
  · intro h; rw [h]

theorem exceptThrowOk {ε α : Type} {e : ε} {b : α} :
    (throw e : Except ε α) = .ok b ↔ False := by
  change Except.error e = Except.ok b ↔ False
  simp

theorem flattenU_noNU {te : TypeExpression} (h : NoNU te) :
    ∀ a ∈ flattenAs "Union" te, NoNU a ∧ a.name ≠ "Union" := by
  intro a ha
  obtain ⟨i, n, args⟩ := te
  simp only [flattenAs, TypeExpression.name, TypeExpression.args] at ha
  split at ha
  · rename_i hn
    rw [beq_iff_eq] at hn
    cases args with
    | none => simp at ha
    | some l =>
      simp only [Option.getD_some] at ha
      cases h with
      | comp _ _ _ hall hu _ => exact ⟨hall a ha, hn ▸ hu hn a ha⟩
  · rename_i hn
    simp only [List.mem_singleton] at ha
    subst ha
    refine ⟨h, ?_⟩
    intro hcon
    simp only [TypeExpression.name] at hcon
    exact hn (by simp [hcon])

theorem flattenI_noNU {te : TypeExpression} (h : NoNU te) :
    ∀ a ∈ flattenAs "Intersect" te, NoNU a ∧ a.name ≠ "Intersect" := by
  intro a ha
  obtain ⟨i, n, args⟩ := te
  simp only [flattenAs, TypeExpression.name, TypeExpression.args] at ha
  split at ha
  · rename_i hn
    rw [beq_iff_eq] at hn
    cases args with
    | none => simp at ha
    | some l =>
      simp only [Option.getD_some] at ha
      cases h with
      | comp _ _ _ hall _ hi => exact ⟨hall a ha, hn ▸ hi hn a ha⟩
  · rename_i hn
    simp only [List.mem_singleton] at ha
    subst ha
    refine ⟨h, ?_⟩
    intro hcon
    simp only [TypeExpression.name] at hcon
    exact hn (by simp [hcon])

theorem noNU_wrap {p : Nat} {nm : String} {l : List TypeExpression}
    (h1 : nm ≠ "Union") (h2 : nm ≠ "Intersect") (hl : ∀ a ∈ l, NoNU a) :
    NoNU ⟨p, nm, some l⟩ :=
  NoNU.comp _ _ _ hl (fun hc => absurd hc h1) (fun hc => absurd hc h2)

theorem noNU_ofUnion {p : Nat} {te rhs : TypeExpression}
    (hte : NoNU te) (hrhs : NoNU rhs) :
    NoNU ⟨p, "Union", some (flattenAs "Union" te ++ flattenAs "Union" rhs)⟩ := by
  refine NoNU.comp _ _ _ ?_ ?_ ?_
  · intro a ha
    rcases List.mem_append.1 ha with hm | hm
    · exact (flattenU_noNU hte a hm).1
    · exact (flattenU_noNU hrhs a hm).1
  · intro _ a ha
    rcases List.mem_append.1 ha with hm | hm
    · exact (flattenU_noNU hte a hm).2
    · exact (flattenU_noNU hrhs a hm).2
  · intro hcon; exact absurd hcon (by decide)

theorem noNU_ofIntersect {p : Nat} {te rhs : TypeExpression}
    (hte : NoNU te) (hrhs : NoNU rhs) :
    NoNU ⟨p, "Intersect", some (flattenAs "Intersect" te ++ flattenAs "Intersect" rhs)⟩ := by
  refine NoNU.comp _ _ _ ?_ ?_ ?_
  · intro a ha
    rcases List.mem_append.1 ha with hm | hm
    · exact (flattenI_noNU hte a hm).1
    · exact (flattenI_noNU hrhs a hm).1
  · intro hcon; exact absurd hcon (by decide)
  · intro _ a ha
    rcases List.mem_append.1 ha with hm | hm
    · exact (flattenI_noNU hte a hm).2
    · exact (flattenI_noNU hrhs a hm).2

/-- Every successful `teStep` call whose inputs satisfy `teIn` produces a
result satisfying `teOKRes`; in particular every parsed type expression
satisfies the Union/Intersect flattening invariant `NoNU`. -/
theorem teStep_noNU (s : List Char) (toks : Array Token) :
    ∀ fuel c r, teIn c → teStep s toks fuel c = .ok r → teOKRes r := by
  intro fuel
  induction fuel with
  | zero => intro c r _ h; exact absurd h (by simp [teStep])
  | succ fuel ih =>
    intro c r hin h
    cases c with
    | primary i =>
      simp only [teStep] at h
      split at h
      · -- string-literal type
        rw [exceptBindOk] at h
        obtain ⟨p, h1, h⟩ := h
        obtain ⟨t, j⟩ := p
        dsimp only at h
        rw [exceptPureOk] at h
        subst h
        exact NoNU.atom _ _
      · split at h
        · -- typeof / keyof
          split at h
          · rw [exceptThrowOk] at h; exact h.elim
          · rw [exceptBindOk] at h
            obtain ⟨p1, h1, h⟩ := h
            obtain ⟨t1, j1⟩ := p1
            dsimp only at h
            rw [exceptBindOk] at h
            obtain ⟨p2, h2, h⟩ := h
            obtain ⟨t2, j2⟩ := p2
            dsimp only at h
            split at h
            · rw [exceptBindOk] at h
              obtain ⟨p3, h3, h⟩ := h
              obtain ⟨t3, j4⟩ := p3
              dsimp only at h
              rw [exceptPureOk] at h
              subst h
              exact NoNU.atom _ _
            · rw [exceptPureOk] at h
              subst h
              exact NoNU.atom _ _
        · split at h
          · -- bare name, generics skipped
            rw [exceptBindOk] at h
            obtain ⟨p, h1, h⟩ := h
            obtain ⟨t, j⟩ := p
            dsimp only at h
            split at h
            · rw [exceptBindOk] at h
              obtain ⟨j2, h2, h⟩ := h
              rw [exceptPureOk] at h
              subst h
              exact NoNU.atom _ _
            · rw [exceptPureOk] at h
              subst h
              exact NoNU.atom _ _
          · split at h
            · -- tuple
              rw [exceptBindOk] at h
              obtain ⟨p, h1, h⟩ := h
              obtain ⟨t, j⟩ := p
              dsimp only at h
              rw [exceptBindOk] at h
              obtain ⟨r0, h2, h⟩ := h
              have h0 := ih (.tupleArgs j []) r0 (by simp [teIn]) h2
              cases r0 with
              | tes args j2 =>
                dsimp only at h
                rw [exceptBindOk] at h
                obtain ⟨p3, h3, h⟩ := h
                obtain ⟨t3, j3⟩ := p3
                dsimp only at h
                rw [exceptPureOk] at h
                subst h
                exact noNU_wrap (by decide) (by decide) h0
              | te v j2 => dsimp only at h; rw [exceptThrowOk] at h; exact h.elim
              | par v j2 => dsimp only at h; rw [exceptThrowOk] at h; exact h.elim
              | pars v j2 => dsimp only at h; rw [exceptThrowOk] at h; exact h.elim
            · split at h
              · -- function type
                split at h
                · rw [exceptThrowOk] at h; exact h.elim
                · rw [exceptBindOk] at h
                  obtain ⟨r0, h1, h⟩ := h
                  cases r0 with
                  | pars ps j =>
                    dsimp only at h
                    rw [exceptBindOk] at h
                    obtain ⟨p2, h2, h⟩ := h
                    obtain ⟨t2, j2⟩ := p2
                    dsimp only at h
                    rw [exceptBindOk] at h
                    obtain ⟨r2, h3, h⟩ := h
                    have hret := ih (.typeExpr j2) r2 trivial h3
                    cases r2 with
                    | te ret j3 =>
                      dsimp only at h
                      rw [exceptPureOk] at h
                      subst h
                      refine noNU_wrap (by decide) (by decide) ?_
                      intro a ha
                      simp only [List.mem_singleton] at ha
                      subst ha
                      exact hret
                    | tes v j3 => dsimp only at h; rw [exceptThrowOk] at h; exact h.elim
                    | par v j3 => dsimp only at h; rw [exceptThrowOk] at h; exact h.elim
                    | pars v j3 => dsimp only at h; rw [exceptThrowOk] at h; exact h.elim
                  | te v j => dsimp only at h; rw [exceptThrowOk] at h; exact h.elim
                  | tes v j => dsimp only at h; rw [exceptThrowOk] at h; exact h.elim
                  | par v j => dsimp only at h; rw [exceptThrowOk] at h; exact h.elim
              · split at h
                · -- object-literal UNKNOWN escape
                  split at h
                  · rw [exceptThrowOk] at h; exact h.elim
                  · rw [exceptBindOk] at h
                    obtain ⟨j1, h1, h⟩ := h
                    split at h
                    · rw [exceptThrowOk] at h; exact h.elim
                    · rw [exceptPureOk] at h
                      subst h
                      exact NoNU.atom _ _
                · split at h
                  · -- parenthesized grouping
                    rw [exceptBindOk] at h
                    obtain ⟨p, h1, h⟩ := h
                    obtain ⟨t, j⟩ := p
                    dsimp only at h
                    rw [exceptBindOk] at h
                    obtain ⟨r0, h2, h⟩ := h
                    have h0 := ih (.typeExpr j) r0 trivial h2
                    cases r0 with
                    | te te2 j2 =>
                      dsimp only at h
                      rw [exceptBindOk] at h
                      obtain ⟨p3, h3, h⟩ := h
                      obtain ⟨t3, j3⟩ := p3
                      dsimp only at h
                      rw [exceptPureOk] at h
                      subst h
                      exact h0
                    | tes v j2 => dsimp only at h; rw [exceptThrowOk] at h; exact h.elim
                    | par v j2 => dsimp only at h; rw [exceptThrowOk] at h; exact h.elim
                    | pars v j2 => dsimp only at h; rw [exceptThrowOk] at h; exact h.elim
                  · -- unrecognized primary: parse error
                    split at h
                    · rw [exceptThrowOk] at h; exact h.elim
                    · rw [exceptThrowOk] at h; exact h.elim
    | typeExpr i =>
      simp only [teStep] at h
      rw [exceptBindOk] at h
      obtain ⟨r0, h1, h⟩ := h
      have h0 := ih (.primary i) r0 trivial h1
      cases r0 with
      | te te j =>
        dsimp only at h
        exact ih (.suffix te j) r h0 h
      | tes v j => dsimp only at h; rw [exceptThrowOk] at h; exact h.elim
      | par v j => dsimp only at h; rw [exceptThrowOk] at h; exact h.elim
      | pars v j => dsimp only at h; rw [exceptThrowOk] at h; exact h.elim
    | suffix te i =>
      simp only [teStep] at h
      split at h
      · -- consumed '['
        split at h
        · -- ARRAY postfix
          refine ih _ r ?_ h
          refine noNU_wrap (by decide) (by decide) ?_
          intro a ha
          simp only [List.mem_singleton] at ha
          subst ha
          exact hin
        · -- SUBSCRIPT
          rw [exceptBindOk] at h
          obtain ⟨r0, h1, h⟩ := h
          have h0 := ih (.typeExpr _) r0 trivial h1
          cases r0 with
          | te index j3 =>
            dsimp only at h
            rw [exceptBindOk] at h
            obtain ⟨p2, h2, h⟩ := h
            obtain ⟨t2, j4⟩ := p2
            dsimp only at h
            refine ih _ r ?_ h
            refine noNU_wrap (by decide) (by decide) ?_
            intro a ha
            simp only [List.mem_cons, List.mem_singleton] at ha
            rcases ha with rfl | rfl | hfalse
            · exact hin
            · exact h0
            · exact absurd hfalse (List.not_mem_nil a)
          | tes v j3 => dsimp only at h; rw [exceptThrowOk] at h; exact h.elim
          | par v j3 => dsimp only at h; rw [exceptThrowOk] at h; exact h.elim
          | pars v j3 => dsimp only at h; rw [exceptThrowOk] at h; exact h.elim
      · -- no '['
        split at h
        · -- Union
          rw [exceptBindOk] at h
          obtain ⟨r0, h1, h⟩ := h
          have h0 := ih (.typeExpr _) r0 trivial h1
          cases r0 with
          | te rhs j2 =>
            dsimp only at h
            refine ih _ r ?_ h
            exact noNU_ofUnion hin h0
          | tes v j2 => dsimp only at h; rw [exceptThrowOk] at h; exact h.elim
          | par v j2 => dsimp only at h; rw [exceptThrowOk] at h; exact h.elim
          | pars v j2 => dsimp only at h; rw [exceptThrowOk] at h; exact h.elim
        · split at h
          · -- Intersect
            rw [exceptBindOk] at h
            obtain ⟨r0, h1, h⟩ := h
            have h0 := ih (.typeExpr _) r0 trivial h1
            cases r0 with
            | te rhs j2 =>
              dsimp only at h
              refine ih _ r ?_ h
              exact noNU_ofIntersect hin h0
            | tes v j2 => dsimp only at h; rw [exceptThrowOk] at h; exact h.elim
            | par v j2 => dsimp only at h; rw [exceptThrowOk] at h; exact h.elim
            | pars v j2 => dsimp only at h; rw [exceptThrowOk] at h; exact h.elim
          · -- loop exit
            injection h with h
            subst h
            exact hin
    | tupleArgs i acc =>
      simp only [teStep] at h
      split at h
      · rw [exceptBindOk] at h
        obtain ⟨r0, h1, h⟩ := h
        have h0 := ih (.typeExpr i) r0 trivial h1
        cases r0 with
        | te te j =>
          dsimp only at h
          split at h
          · refine ih _ r ?_ h
            intro a ha
            rcases List.mem_append.1 ha with hm | hm
            · exact hin a hm
            · simp only [List.mem_singleton] at hm
              subst hm
              exact h0
          · rw [exceptPureOk] at h
            subst h
            intro a ha
            rcases List.mem_append.1 ha with hm | hm
            · exact hin a hm
            · simp only [List.mem_singleton] at hm
              subst hm
              exact h0
        | tes v j => dsimp only at h; rw [exceptThrowOk] at h; exact h.elim
        | par v j => dsimp only at h; rw [exceptThrowOk] at h; exact h.elim
        | pars v j => dsimp only at h; rw [exceptThrowOk] at h; exact h.elim
      · rw [exceptPureOk] at h
        subst h
        exact hin
    | param i =>
      simp only [teStep] at h
      split at h
      · rw [exceptThrowOk] at h; exact h.elim
      · rw [exceptBindOk] at h
        obtain ⟨p1, h1, h⟩ := h
        obtain ⟨t1, j2⟩ := p1
        dsimp only at h
        rw [exceptBindOk] at h
        obtain ⟨p2, h2, h⟩ := h
        obtain ⟨t2, j4⟩ := p2
        dsimp only at h
        rw [exceptBindOk] at h
        obtain ⟨r0, h3, h⟩ := h
        cases r0 with
        | te ty j5 =>
          dsimp only at h
          rw [exceptPureOk] at h
          subst h
          trivial
        | tes v j5 => dsimp only at h; rw [exceptThrowOk] at h; exact h.elim
        | par v j5 => dsimp only at h; rw [exceptThrowOk] at h; exact h.elim
        | pars v j5 => dsimp only at h; rw [exceptThrowOk] at h; exact h.elim
    | paramsLoop i acc =>
      simp only [teStep] at h
      split at h
      · rw [exceptBindOk] at h
        obtain ⟨r0, h1, h⟩ := h
        cases r0 with
        | par p j =>
          dsimp only at h
          split at h
          · refine ih _ r ?_ h
            trivial
          · rw [exceptPureOk] at h
            subst h
            trivial
        | te v j => dsimp only at h; rw [exceptThrowOk] at h; exact h.elim
        | tes v j => dsimp only at h; rw [exceptThrowOk] at h; exact h.elim
        | pars v j => dsimp only at h; rw [exceptThrowOk] at h; exact h.elim
      · rw [exceptPureOk] at h
        subst h
        trivial
    | params i =>
      simp only [teStep] at h
      rw [exceptBindOk] at h
      obtain ⟨p1, h1, h⟩ := h
      obtain ⟨t1, j⟩ := p1
      dsimp only at h
      rw [exceptBindOk] at h
      obtain ⟨r0, h2, h⟩ := h
      cases r0 with
      | pars ps j2 =>
        dsimp only at h
        rw [exceptBindOk] at h
        obtain ⟨p3, h3, h⟩ := h
        obtain ⟨t3, j3⟩ := p3
        dsimp only at h
        rw [exceptPureOk] at h
        subst h
        trivial
      | te v j2 => dsimp only at h; rw [exceptThrowOk] at h; exact h.elim
      | tes v j2 => dsimp only at h; rw [exceptThrowOk] at h; exact h.elim
      | par v j2 => dsimp only at h; rw [exceptThrowOk] at h; exact h.elim

theorem exceptMapOk {ε α β : Type} {x : Except ε α} {f : α → β} {b : β} :
    x.map f = .ok b ↔ ∃ a, x = .ok a ∧ f a = b := by
  cases x <;> simp [Except.map]

/-- Dropping `k` characters after advancing the position by `k` preserves the
bound `pos + rest.length ≤ L` (or empties the rest). -/
theorem step_inv {L pos k : Nat} {rest : List Char} (h : pos + rest.length ≤ L) :
    rest.drop k = [] ∨ (pos + k) + (rest.drop k).length ≤ L := by
  rcases le_or_lt k rest.length with hk | hk
  · right
    rw [List.length_drop]
    omega
  · left
    apply List.eq_nil_of_length_eq_zero
    rw [List.length_drop]
    omega

/-- `skipTrivia` never moves the position backwards. -/
theorem skipTrivia_mono : ∀ fuel pos rest, pos ≤ (skipTrivia fuel pos rest).1 := by
  intro fuel
  induction fuel with
  | zero => intro pos rest; simp [skipTrivia]
  | succ fuel ih =>
    intro pos rest
    cases rest with
    | nil => simp [skipTrivia]
    | cons c cs =>
      simp only [skipTrivia]
      split
      · exact le_trans (Nat.le_succ pos) (ih _ _)
      · split
        · exact le_trans (Nat.le_add_right _ _) (ih _ _)
        · split
          · exact le_trans (Nat.le_add_right _ _) (ih _ _)
          · exact le_refl _

/-- `skipTrivia` preserves the length bound (or empties the rest). -/
theorem skipTrivia_inv (L : Nat) : ∀ fuel pos rest,
    (rest = [] ∨ pos + rest.length ≤ L) →
    ((skipTrivia fuel pos rest).2 = [] ∨
      (skipTrivia fuel pos rest).1 + (skipTrivia fuel pos rest).2.length ≤ L) := by
  intro fuel
  induction fuel with
  | zero =>
    intro pos rest h
    rcases h with h | h
    · left; simp [skipTrivia, h]
    · right; simpa [skipTrivia] using h
  | succ fuel ih =>
    intro pos rest h
    cases rest with
    | nil => left; simp [skipTrivia]
    | cons c cs =>
      rcases h with h | h
      · exact absurd h (by simp)
      · simp only [skipTrivia]
        split
        · refine ih _ _ ?_
          rcases @step_inv L pos 1 (c :: cs) h with h1 | h1
          · left; simpa using h1
          · right; simpa using h1
        · split
          · exact ih _ _ (step_inv h)
          · split
            · exact ih _ _ (step_inv h)
            · right; exact h

/-- The cons step of the lexer soundness invariant. -/
theorem lexLoop_cons_step {s : List Char} {pos pos' k : Nat} {ts' : List Token}
    {tok : Token}
    (htype : tok.type ≠ "EOF") (hi : tok.i = pos') (hk : 1 ≤ k) (hpos : pos ≤ pos')
    (hlt : pos' < s.length)
    (hts' : ∃ ts₀, ts' = ts₀ ++ [⟨s.length, "EOF", ""⟩] ∧
        (∀ t ∈ ts₀, t.type ≠ "EOF" ∧ pos' + k ≤ t.i ∧ t.i < s.length) ∧
        List.Pairwise (fun a b => a.i < b.i) ts') :
    ∃ ts₀, tok :: ts' = ts₀ ++ [⟨s.length, "EOF", ""⟩] ∧
      (∀ t ∈ ts₀, t.type ≠ "EOF" ∧ pos ≤ t.i ∧ t.i < s.length) ∧
      List.Pairwise (fun a b => a.i < b.i) (tok :: ts') := by
  obtain ⟨ts₀, rfl, hmem, hpw⟩ := hts'
  refine ⟨tok :: ts₀, rfl, ?_, ?_⟩
  · intro t ht
    rcases List.mem_cons.1 ht with rfl | ht
    · exact ⟨htype, by omega, by omega⟩
    · obtain ⟨g1, g2, g3⟩ := hmem t ht
      exact ⟨g1, by omega, g3⟩
  · rw [List.pairwise_cons]
    refine ⟨?_, hpw⟩
    intro b hb
    rcases List.mem_append.1 hb with hb | hb
    · obtain ⟨_, g2, _⟩ := hmem b hb
      omega
    · simp only [List.mem_singleton] at hb
      subst hb
      simpa [hi] using hlt

/-- The symbols catalog contains no `EOF` and only nonempty spellings. -/
theorem symbols_ne_eof : ∀ x ∈ SYMBOLS_REVERSE_SORTED, x ≠ "EOF" ∧ 1 ≤ x.length := by
  decide

/-- A NUMBER token consumes at least one character. -/
theorem numberLen_pos {c : Char} {cs : List Char} (hc : c.isDigit = true) :
    1 ≤ numberLen (c :: cs) := by
  by_cases h0x : "0x".toList.isPrefixOf (c :: cs) = true
  · simp only [numberLen, if_pos h0x]
    split <;> omega
  · rw [Bool.not_eq_true] at h0x
    have hd : 1 ≤ ((c :: cs).takeWhile Char.isDigit).length := by
      rw [List.takeWhile_cons, if_pos hc]
      simp
    simp only [numberLen, h0x, Bool.false_eq_true, if_false, List.drop_zero]
    split <;> omega

/-- A NAME token consumes at least one character. -/
theorem nameLen_pos {c : Char} {cs : List Char} (hc : (c.isAlpha || c == '_') = true) :
    1 ≤ ((c :: cs).takeWhile (fun ch => ch.isAlphanum || ch == '_')).length := by
  have hc2 : (c.isAlphanum || c == '_') = true := by
    rcases Bool.or_eq_true_iff.1 hc with h | h
    · simp [Char.isAlphanum, h]
    · simp [h]
  rw [List.takeWhile_cons, if_pos hc2]
  simp

/-- Soundness of the lexer loop: on success, the produced tokens satisfy the
position invariants (all positions at least the starting position, strictly
increasing, no interior EOF, final EOF at the input length). -/
theorem lexLoop_sound (s : List Char) : ∀ fuel pos rest ts,
    (rest = [] ∨ pos + rest.length ≤ s.length) →
    lexLoop s fuel pos rest = .ok ts →
    ∃ ts₀, ts = ts₀ ++ [⟨s.length, "EOF", ""⟩] ∧
      (∀ t ∈ ts₀, t.type ≠ "EOF" ∧ pos ≤ t.i ∧ t.i < s.length) ∧
      List.Pairwise (fun a b => a.i < b.i) ts := by
  intro fuel
  induction fuel with
  | zero => intro pos rest ts _ h; exact absurd h (by simp [lexLoop])
  | succ fuel ih =>
    intro pos rest ts hinv h
    simp only [lexLoop] at h
    split at h
    · -- trivia consumed everything: single EOF token
      injection h with h
      subst h
      exact ⟨[], rfl, by simp, by simp⟩
    · rename_i p pos' c cs heq
      have hmono : pos ≤ pos' := by
        have := skipTrivia_mono (rest.length + 1) pos rest
        rw [heq] at this
        exact this
      have hbound : pos' + (c :: cs).length ≤ s.length := by
        have := skipTrivia_inv s.length (rest.length + 1) pos rest hinv
        rw [heq] at this
        rcases this with h' | h'
        · exact absurd h' (by simp)
        · exact h'
      have hlt : pos' < s.length := by
        simp only [List.length_cons] at hbound
        omega
      split at h
      · -- doc comment
        rw [exceptMapOk] at h
        obtain ⟨ts', h1, h2⟩ := h
        subst h2
        refine lexLoop_cons_step (by simp) rfl (by omega) hmono hlt
          (ih _ _ _ ?_ h1)
        rcases @step_inv _ _ (2 + findStarSlash ((c :: cs).drop 2) + 2) _ hbound with h' | h'
        · exact Or.inl h'
        · exact Or.inr h'
      · split at h
        · -- NUMBER
          rename_i hdig
          rw [exceptMapOk] at h
          obtain ⟨ts', h1, h2⟩ := h
          subst h2
          refine lexLoop_cons_step (by simp) rfl (numberLen_pos hdig) hmono hlt
            (ih _ _ _ ?_ h1)
          rcases @step_inv _ _ (numberLen (c :: cs)) _ hbound with h' | h'
          · exact Or.inl h'
          · exact Or.inr h'
        · split at h
          · -- NAME
            rename_i halpha
            rw [exceptMapOk] at h
            obtain ⟨ts', h1, h2⟩ := h
            subst h2
            refine lexLoop_cons_step (by simp) rfl (nameLen_pos halpha) hmono hlt
              (ih _ _ _ ?_ h1)
            rcases step_inv hbound with h' | h'
            · exact Or.inl h'
            · exact Or.inr h'
          · split at h
            · -- STRING
              rw [exceptMapOk] at h
              obtain ⟨ts', h1, h2⟩ := h
              subst h2
              refine lexLoop_cons_step (by simp) rfl (by omega) hmono hlt
                (ih _ _ _ ?_ h1)
              rcases step_inv hbound with h' | h'
              · exact Or.inl h'
              · exact Or.inr h'
            · -- symbol
              split at h
              · rename_i sym hfind
                have hsym := symbols_ne_eof sym (List.mem_of_find?_eq_some hfind)
                rw [exceptMapOk] at h
                obtain ⟨ts', h1, h2⟩ := h
                subst h2
                refine lexLoop_cons_step ?_ rfl hsym.2 hmono hlt
                  (ih _ _ _ ?_ h1)
                · exact hsym.1
                · rcases step_inv hbound with h' | h'
                  · exact Or.inl h'
                  · exact Or.inr h'
              · exact absurd h (by simp)

/-- If `cs` contains no `*/`, the comment scan runs exactly to the closing
delimiter appended after it. -/
theorem findStarSlash_append {cs : List Char} (t : List Char)
    (h : containsStarSlash cs = false) :
    findStarSlash (cs ++ '*' :: '/' :: t) = cs.length := by
  induction cs with
  | nil => simp [findStarSlash]
  | cons c cs ihc =>
    rw [containsStarSlash, Bool.or_eq_false_iff] at h
    obtain ⟨h1, h2⟩ := h
    have hcond : (c == '*' && ((cs ++ '*' :: '/' :: t).head? == some '/')) = false := by
      cases cs with
      | nil => simp
      | cons c2 cs2 => simpa using h1
    rw [List.cons_append, findStarSlash, if_neg (by rw [hcond]; exact Bool.false_ne_true),
      ihc h2, List.length_cons]
  
theorem skipTrivia_nilR : ∀ f pos, skipTrivia f pos [] = (pos, []) := by
  intro f pos
  cases f <;> simp [skipTrivia]

/-- `lexLoop` on an exhausted input emits the single EOF token. -/
theorem lexLoop_nil (s : List Char) : ∀ f pos,
    lexLoop s (f + 1) pos [] = .ok [⟨s.length, "EOF", ""⟩] := by
  intro f pos
  simp [lexLoop, skipTrivia_nilR]

/-- Trivia skipping does not move over the start of a doc comment. -/
theorem skipTrivia_doc (cs : List Char) (h2 : cs.head? ≠ some '/') :
    ∀ f pos, skipTrivia (f + 1) pos ('/' :: '*' :: '*' :: cs ++ '*' :: '/' :: []) =
      (pos, '/' :: '*' :: '*' :: cs ++ '*' :: '/' :: []) := by
  intro f pos
  have hw : ('/').isWhitespace = false := by decide
  have hss : ("//".toList.isPrefixOf ('/' :: '*' :: '*' :: cs ++ '*' :: '/' :: [])) = false := by
    simp +decide [List.isPrefixOf]
  have hb : ("/**/".toList.isPrefixOf ('/' :: '*' :: '*' :: cs ++ '*' :: '/' :: [])) = false := by
    cases cs with
    | nil => simp +decide [List.isPrefixOf]
    | cons c cs2 =>
      have hcne : ('/' == c) = false := by
        simp only [List.head?] at h2
        rw [beq_eq_false_iff_ne]
        intro hcon
        exact h2 (by rw [hcon])
      simp +decide [List.isPrefixOf, hcne]
  have hds : ("/**".toList.isPrefixOf ('/' :: '*' :: '*' :: cs ++ '*' :: '/' :: [])) = true := by
    simp +decide [List.isPrefixOf]
  have hc3 : ("/**/".toList.isPrefixOf ('/' :: '*' :: '*' :: cs ++ '*' :: '/' :: [])
      || ("/*".toList.isPrefixOf ('/' :: '*' :: '*' :: cs ++ '*' :: '/' :: [])
          && !("/**".toList.isPrefixOf ('/' :: '*' :: '*' :: cs ++ '*' :: '/' :: [])))) = false := by
    rw [hb, hds]
    simp
  simp only [skipTrivia]
  rw [if_neg (by rw [hss]; exact Bool.false_ne_true),
    if_neg (by rw [hc3]; exact Bool.false_ne_true)]
  rfl

/-- Lexing an input that is exactly one doc comment yields exactly the
COMMENT token (whose value is the interior) and EOF. -/
theorem lexLoop_doc (s cs : List Char) (h1 : containsStarSlash cs = false)
    (h2 : cs.head? ≠ some '/') :
    ∀ f pos, lexLoop s (f + 2) pos ('/' :: '*' :: '*' :: cs ++ '*' :: '/' :: []) =
      .ok [⟨pos, "COMMENT", ⟨cs⟩⟩, ⟨s.length, "EOF", ""⟩] := by
  intro f pos
  have hds : ("/**".toList.isPrefixOf ('/' :: '*' :: '*' :: cs ++ '*' :: '/' :: [])) = true := by
    simp +decide [List.isPrefixOf]
  have hstar : containsStarSlash ('*' :: cs) = false := by
    rw [containsStarSlash, Bool.or_eq_false_iff]
    refine ⟨?_, h1⟩
    cases cs with
    | nil => simp
    | cons c cs2 =>
      have hcne : (c == '/') = false := by
        simp only [List.head?] at h2
        rw [beq_eq_false_iff_ne]
        intro hcon
        exact h2 (by rw [hcon])
      simp [hcne]
  have hfind2 : findStarSlash ('*' :: (cs ++ ['*', '/'])) = cs.length + 1 := by
    have hfs := @findStarSlash_append ('*' :: cs) [] hstar
    simp only [List.cons_append, List.length_cons] at hfs
    exact hfs
  have htake2 : List.take (findStarSlash ('*' :: (cs ++ ['*', '/'])) - 1) (cs ++ ['*', '/']) = cs := by
    rw [hfind2]
    have ht := List.take_left cs ('*' :: '/' :: [])
    simp only [Nat.add_sub_cancel]
    exact ht
  have hdrop2 : List.drop (2 + findStarSlash ('*' :: (cs ++ ['*', '/']))) ('*' :: (cs ++ ['*', '/'])) = [] := by
    rw [hfind2]
    apply List.eq_nil_of_length_eq_zero
    rw [List.length_drop]
    simp only [List.length_cons, List.length_append, List.length_nil]
    omega
  rw [lexLoop, skipTrivia_doc cs h2]
  split
  · rename_i heq
    simp at heq
  · rename_i pos2 c2 cs2 heq
    injection heq with h3 h4
    subst h3
    injection h4 with h5 h6
    subst h5
    subst h6
    simp only [List.append_eq, List.cons_append]
    simp [hds, Except.map]
    rw [htake2, hdrop2, lexLoop_nil s f]

/-- Single-step unfolding of `skipTrivia` on a nonempty rest. -/
theorem skipTrivia_cons (fuel pos : Nat) (c : Char) (cs : List Char) :
    skipTrivia (fuel + 1) pos (c :: cs) =
      (if c.isWhitespace then skipTrivia fuel (pos + 1) cs
       else if "//".toList.isPrefixOf (c :: cs) then
         skipTrivia fuel (pos + ((c :: cs).takeWhile (fun ch => ch ≠ '\n')).length)
           ((c :: cs).drop ((c :: cs).takeWhile (fun ch => ch ≠ '\n')).length)
       else if "/**/".toList.isPrefixOf (c :: cs)
           || ("/*".toList.isPrefixOf (c :: cs) && !("/**".toList.isPrefixOf (c :: cs))) then
         skipTrivia fuel (pos + (2 + findStarSlash ((c :: cs).drop 2) + 2))
           ((c :: cs).drop (2 + findStarSlash ((c :: cs).drop 2) + 2))
       else (pos, c :: cs)) := rfl

/-- An input that is exactly one ordinary (non-doc) block comment is wholly
consumed as trivia, so lexing yields only the EOF token. -/
theorem lexLoop_block (s cs : List Char) (h1 : containsStarSlash cs = false)
    (h2 : cs.head? ≠ some '*') :
    ∀ f pos, lexLoop s (f + 1) pos ('/' :: '*' :: cs ++ '*' :: '/' :: []) =
      .ok [⟨s.length, "EOF", ""⟩] := by
  intro f pos
  have e1 : (('/' :: '*' :: cs ++ '*' :: '/' :: []) : List Char) =
      '/' :: ('*' :: (cs ++ '*' :: '/' :: [])) := by
    simp
  rw [e1]
  have hss : ("//".toList.isPrefixOf ('/' :: ('*' :: (cs ++ '*' :: '/' :: [])))) = false := by
    simp +decide [List.isPrefixOf]
  have hcond : ("/**/".toList.isPrefixOf ('/' :: ('*' :: (cs ++ '*' :: '/' :: [])))
      || ("/*".toList.isPrefixOf ('/' :: ('*' :: (cs ++ '*' :: '/' :: [])))
          && !("/**".toList.isPrefixOf ('/' :: ('*' :: (cs ++ '*' :: '/' :: [])))))) = true := by
    cases cs with
    | nil => simp +decide [List.isPrefixOf]
    | cons c cs2 =>
      have hcne : ('*' == c) = false := by
        simp only [List.head?] at h2
        rw [beq_eq_false_iff_ne]
        intro hcon
        exact h2 (by rw [hcon])
      simp +decide [List.isPrefixOf, hcne]
  have hfind : findStarSlash (('/' :: ('*' :: (cs ++ '*' :: '/' :: []))).drop 2) = cs.length := by
    have hfs := @findStarSlash_append cs [] h1
    simpa using hfs
  have hdropall :
      ('/' :: ('*' :: (cs ++ '*' :: '/' :: []))).drop
        (2 + findStarSlash (('/' :: ('*' :: (cs ++ '*' :: '/' :: []))).drop 2) + 2) = [] := by
    rw [hfind]
    apply List.eq_nil_of_length_eq_zero
    rw [List.length_drop]
    simp only [List.length_cons, List.length_append, List.length_nil]
    omega
  have hskip : skipTrivia (('/' :: ('*' :: (cs ++ '*' :: '/' :: []))).length + 1) pos
      ('/' :: ('*' :: (cs ++ '*' :: '/' :: []))) =
      (pos + (2 + findStarSlash (('/' :: ('*' :: (cs ++ '*' :: '/' :: []))).drop 2) + 2), []) := by
    rw [skipTrivia_cons]
    rw [if_neg (by decide), if_neg (by rw [hss]; exact Bool.false_ne_true), if_pos hcond,
      hdropall, skipTrivia_nilR]
  rw [lexLoop, hskip]

/-- An input that is exactly one `//` line comment (no newline inside) is
wholly consumed as trivia, so lexing yields only the EOF token. -/
theorem lexLoop_lineComment (s cs : List Char) (h1 : '\n' ∉ cs) :
    ∀ f pos, lexLoop s (f + 1) pos ('/' :: '/' :: cs) = .ok [⟨s.length, "EOF", ""⟩] := by
  intro f pos
  have hss : ("//".toList.isPrefixOf ('/' :: '/' :: cs)) = true := by
    simp +decide [List.isPrefixOf]
  have htw : ('/' :: '/' :: cs).takeWhile (fun ch => ch ≠ '\n') = '/' :: '/' :: cs := by
    rw [List.takeWhile_eq_self_iff]
    intro x hx
    simp only [decide_eq_true_eq]
    intro hcon
    subst hcon
    rcases List.mem_cons.1 hx with h' | hx2
    · exact absurd h' (by decide)
    · rcases List.mem_cons.1 hx2 with h'' | hx3
      · exact absurd h'' (by decide)
      · exact h1 hx3
  have hskip : skipTrivia (('/' :: '/' :: cs).length + 1) pos ('/' :: '/' :: cs) =
      (pos + ('/' :: '/' :: cs).length, []) := by
    rw [skipTrivia_cons ('/' :: '/' :: cs).length pos '/' ('/' :: cs)]
    rw [if_neg (by decide), if_pos hss, htw, List.drop_length, skipTrivia_nilR]
  rw [lexLoop, hskip]

/-- C1 (amended): an unknown top-level declaration keyword yields a
ParseError reporting a 1-based line number, and an unrecognizable character
run yields a LexError reporting a 1-based line number; however an
unterminated string literal does NOT yield a LexError — the lexer silently
emits a STRING token extending to the end of input. -/
theorem malformed_input_diagnostics :
    parse "class Foo \x7b\x7d" = .error (.parseError 1) ∧
    lex "\n\n@" = .error (.lexError 3) ∧
    lex "@" = .error (.lexError 1) ∧
    lex "\"abc" = .ok [⟨0, "STRING", "\"abc"⟩, ⟨4, "EOF", ""⟩] := by
  refine ⟨by rfl, by rfl, by rfl, by rfl⟩

/-- C1 counterexample: an unterminated string literal is lexed WITHOUT a
LexError (contradicting the claim), and an unterminated interface body
crashes with a bare IndexError carrying no line diagnostic (contradicting
"never a crash with no diagnostic"). -/
theorem unterminated_string_and_crash_counterexample :
    lex "\"abc" = .ok [⟨0, "STRING", "\"abc"⟩, ⟨4, "EOF", ""⟩] ∧
    parse "interface A \x7b x" = .error .indexError := by
  refine ⟨by rfl, by rfl⟩

/-- C2: the code folds `tokens[i].type` — the literal string NAME — into the
synthetic type name instead of the keyword text, so `typeof X` parses to the
atomic name `NAME(X)` (not `typeof(X)`), `keyof Y` to `NAME(Y)`, and the
member form `typeof X.Y` to `NAME(X)Y` (no dot), evaluating the code at the
failing inputs of the claim. -/
theorem typeof_keyof_folds_token_type :
    parse "type T = typeof X;" = .ok [.typeAlias 0 none "T" ⟨9, "NAME(X)", none⟩] ∧
    parse "type U = keyof Y;" = .ok [.typeAlias 0 none "U" ⟨9, "NAME(Y)", none⟩] ∧
    parse "type V = typeof X.Y;" = .ok [.typeAlias 0 none "V" ⟨9, "NAME(X)Y", none⟩] := by
  refine ⟨by rfl, by rfl, by rfl⟩

/-- C3 (amended): `|` and `&` have equal precedence and the right operand of
each operator is the full parse of the remainder, so the textually FIRST
operator becomes the outermost node: `A | B & C` parses as a 2-ary Union of
`A` and Intersect(B, C), and `A & B | C` parses as a 2-ary Intersect of `A`
and Union(B, C). -/
theorem union_intersect_equal_precedence_textual :
    parse "type T = A | B & C;" =
      .ok [.typeAlias 0 none "T" ⟨9, "Union", some [⟨9, "A", none⟩,
        ⟨13, "Intersect", some [⟨13, "B", none⟩, ⟨17, "C", none⟩]⟩]⟩] ∧
    parse "type T = A & B | C;" =
      .ok [.typeAlias 0 none "T" ⟨9, "Intersect", some [⟨9, "A", none⟩,
        ⟨13, "Union", some [⟨13, "B", none⟩, ⟨17, "C", none⟩]⟩]⟩] := by
  refine ⟨by rfl, by rfl⟩

/-- C3 counterexample: under left-associative combination in textual order,
`A & B | C` would group as Union(Intersect(A, B), C) with outermost name
"Union"; the parser instead produces an outermost "Intersect" node
Intersect(A, Union(B, C)), refuting the claimed left associativity. -/
theorem mixed_operator_grouping_counterexample :
    parse "type T = A & B | C;" =
      .ok [.typeAlias 0 none "T" ⟨9, "Intersect", some [⟨9, "A", none⟩,
        ⟨13, "Union", some [⟨13, "B", none⟩, ⟨17, "C", none⟩]⟩]⟩] ∧
    (⟨9, "Intersect", some [⟨9, "A", none⟩,
      ⟨13, "Union", some [⟨13, "B", none⟩, ⟨17, "C", none⟩]⟩]⟩ : TypeExpression).name ≠
      "Union" := by
  refine ⟨by rfl, by decide⟩

/-- C4: every type expression the parser produces satisfies the flattening
invariant — no Union node has an immediate arg named Union and no Intersect
node has an immediate arg named Intersect — and concretely `A | B | C`
parses to a single 3-ary Union, never a nested Union-of-Union. -/
theorem union_intersect_flattening_invariant :
    (∀ (s : List Char) (toks : Array Token) (fuel i : Nat)
        (te : TypeExpression) (j : Nat),
        parseTypeExpression s toks fuel i = .ok (te, j) → NoNU te) ∧
    parse "type T = A | B | C;" =
      .ok [.typeAlias 0 none "T" ⟨9, "Union",
        some [⟨9, "A", none⟩, ⟨13, "B", none⟩, ⟨17, "C", none⟩]⟩] := by
  constructor
  · intro s toks fuel i te j h
    unfold parseTypeExpression at h
    split at h
    · rename_i v k heq
      injection h with h2
      injection h2 with h3 h4
      subst h3
      exact teStep_noNU s toks fuel (.typeExpr i) _ trivial heq
    · exact absurd h (by simp)
    · exact absurd h (by simp)
  · rfl

theorem union_intersect_flattening_invariant_witness :
    NoNU ⟨0, "Union", some [⟨0, "A", none⟩, ⟨4, "B", none⟩, ⟨8, "C", none⟩]⟩ :=
  union_intersect_flattening_invariant.1 "A | B | C".data
    #[⟨0, "NAME", "A"⟩, ⟨2, "|", "|"⟩, ⟨4, "NAME", "B"⟩, ⟨6, "|", "|"⟩,
      ⟨8, "NAME", "C"⟩, ⟨9, "EOF", ""⟩] 200 0
    ⟨0, "Union", some [⟨0, "A", none⟩, ⟨4, "B", none⟩, ⟨8, "C", none⟩]⟩ 5 (by rfl)

/-- C5: postfix array binds tighter than a following `|`: `A[] | B` parses
as Union(ARRAY(A), B) — the outermost node is the Union, not an ARRAY
applied to a Union. -/
theorem array_postfix_binds_tighter :
    parse "type T = A[] | B;" =
      .ok [.typeAlias 0 none "T" ⟨9, "Union",
        some [⟨9, "ARRAY", some [⟨9, "A", none⟩]⟩, ⟨15, "B", none⟩]⟩] ∧
    (⟨9, "Union", some [⟨9, "ARRAY", some [⟨9, "A", none⟩]⟩, ⟨15, "B", none⟩]⟩ :
      TypeExpression).name ≠ "ARRAY" := by
  refine ⟨by rfl, by decide⟩

/-- C6: whenever tokenization succeeds, token positions are strictly
increasing across the sequence, and the sequence is terminated by exactly
one synthetic EOF token — the final one, at position = input length. -/
theorem lex_token_stream_invariants :
    ∀ (str : String) (ts : List Token), lex str = .ok ts →
      List.Pairwise (fun a b => a.i < b.i) ts ∧
      ∃ ts₀, ts = ts₀ ++ [⟨str.data.length, "EOF", ""⟩] ∧ ∀ t ∈ ts₀, t.type ≠ "EOF" := by
  intro str ts h
  rw [lex] at h
  obtain ⟨ts₀, hts, hmem, hpw⟩ :=
    lexLoop_sound str.data (str.data.length + 1) 0 str.data ts (by right; omega) h
  exact ⟨hpw, ts₀, hts, fun t ht => (hmem t ht).1⟩

theorem lex_token_stream_invariants_witness :
    List.Pairwise (fun a b => a.i < b.i)
      ([⟨0, "NAME", "a"⟩, ⟨2, "NAME", "b"⟩, ⟨3, "EOF", ""⟩] : List Token) ∧
    ∃ ts₀, [(⟨0, "NAME", "a"⟩ : Token), ⟨2, "NAME", "b"⟩, ⟨3, "EOF", ""⟩] =
        ts₀ ++ [⟨3, "EOF", ""⟩] ∧ ∀ t ∈ ts₀, t.type ≠ "EOF" :=
  lex_token_stream_invariants "a b"
    [⟨0, "NAME", "a"⟩, ⟨2, "NAME", "b"⟩, ⟨3, "EOF", ""⟩] (by rfl)

/-- C7: line comments and ordinary block comments are skipped with no token
emitted, while a doc comment (opened with exactly slash-star-star) is
emitted as a COMMENT token holding the interior text without the
delimiters; the degenerate four-character comment is skipped as an
ordinary comment, and comments interleave with ordinary tokens as
expected. -/
theorem comment_lexing_behavior :
    (∀ cs : List Char, containsStarSlash cs = false → cs.head? ≠ some '/' →
      lex ⟨'/' :: '*' :: '*' :: cs ++ '*' :: '/' :: []⟩ =
        .ok [⟨0, "COMMENT", ⟨cs⟩⟩, ⟨cs.length + 5, "EOF", ""⟩]) ∧
    (∀ cs : List Char, containsStarSlash cs = false → cs.head? ≠ some '*' →
      lex ⟨'/' :: '*' :: cs ++ '*' :: '/' :: []⟩ = .ok [⟨cs.length + 4, "EOF", ""⟩]) ∧
    (∀ cs : List Char, '\n' ∉ cs →
      lex ⟨'/' :: '/' :: cs⟩ = .ok [⟨cs.length + 2, "EOF", ""⟩]) ∧
    lex "/**/" = .ok [⟨4, "EOF", ""⟩] ∧
    lex "a /*x*/ b /**d*/ c // e" =
      .ok [⟨0, "NAME", "a"⟩, ⟨8, "NAME", "b"⟩, ⟨10, "COMMENT", "d"⟩,
        ⟨17, "NAME", "c"⟩, ⟨23, "EOF", ""⟩] := by
  refine ⟨?_, ?_, ?_, by rfl, by rfl⟩
  · intro cs h1 h2
    have hlen : (('/' :: '*' :: '*' :: cs ++ '*' :: '/' :: []) : List Char).length =
        cs.length + 5 := by
      simp only [List.length_append, List.length_cons, List.length_nil]
    show lexLoop ('/' :: '*' :: '*' :: cs ++ '*' :: '/' :: [])
        (('/' :: '*' :: '*' :: cs ++ '*' :: '/' :: []).length + 1) 0
        ('/' :: '*' :: '*' :: cs ++ '*' :: '/' :: []) = _
    rw [show (('/' :: '*' :: '*' :: cs ++ '*' :: '/' :: []) : List Char).length + 1 =
        (cs.length + 4) + 2 from by rw [hlen]]
    rw [lexLoop_doc _ cs h1 h2, hlen]
  · intro cs h1 h2
    have hlen : (('/' :: '*' :: cs ++ '*' :: '/' :: []) : List Char).length =
        cs.length + 4 := by
      simp only [List.length_append, List.length_cons, List.length_nil]
    show lexLoop ('/' :: '*' :: cs ++ '*' :: '/' :: [])
        (('/' :: '*' :: cs ++ '*' :: '/' :: []).length + 1) 0
        ('/' :: '*' :: cs ++ '*' :: '/' :: []) = _
    rw [lexLoop_block _ cs h1 h2, hlen]
  · intro cs h1
    have hlen : (('/' :: '/' :: cs) : List Char).length = cs.length + 2 := by
      simp only [List.length_cons]
    show lexLoop ('/' :: '/' :: cs) (('/' :: '/' :: cs).length + 1) 0
        ('/' :: '/' :: cs) = _
    rw [lexLoop_lineComment _ cs h1, hlen]

theorem comment_lexing_behavior_witness :
    lex ⟨'/' :: '*' :: '*' :: ('a' :: []) ++ '*' :: '/' :: []⟩ =
      .ok [⟨0, "COMMENT", ⟨'a' :: []⟩⟩, ⟨6, "EOF", ""⟩] ∧
    lex ⟨'/' :: '*' :: ('x' :: []) ++ '*' :: '/' :: []⟩ = .ok [⟨5, "EOF", ""⟩] ∧
    lex ⟨'/' :: '/' :: (' ' :: 'q' :: [])⟩ = .ok [⟨4, "EOF", ""⟩] :=
  ⟨comment_lexing_behavior.1 ('a' :: []) (by decide) (by decide),
   comment_lexing_behavior.2.1 ('x' :: []) (by decide) (by decide),
   comment_lexing_behavior.2.2.1 (' ' :: 'q' :: []) (by decide)⟩

/-- C8 (amended): at the top level a run of doc comments keeps only the
most recent, which attaches to the next declaration and is then cleared;
ordinary block and line comments never attach; inside a namespace body a
single leading doc comment attaches to that member. -/
theorem comment_attachment_behavior :
    parse "/**a*/ /**b*/ const x: A; const y: B;" =
      .ok [.variableDecl 14 (some ⟨7, "COMMENT", "b"⟩) "x" ⟨23, "A", none⟩,
        .variableDecl 26 none "y" ⟨35, "B", none⟩] ∧
    parse "/*a*/ const x: A;" = .ok [.variableDecl 6 none "x" ⟨15, "A", none⟩] ∧
    parse "// c\nconst x: A;" = .ok [.variableDecl 5 none "x" ⟨14, "A", none⟩] ∧
    parse "namespace N \x7b /**a*/ const x: A; \x7d" =
      .ok [.namespaceDecl 0 none "N"
        [.variableDecl 21 (some ⟨14, "COMMENT", "a"⟩) "x" ⟨30, "A", none⟩]] := by
  refine ⟨by rfl, by rfl, by rfl, by rfl⟩

/-- C8 counterexample: two consecutive doc comments before a namespace
member fail with a ParseError instead of keeping the most recent one, and
a pending top-level doc comment is NOT cleared before the namespace body
is parsed — it attaches both to the namespace and again to the first
member inside it. -/
theorem namespace_comment_counterexample :
    parse "namespace N \x7b /**a*/ /**b*/ const x: A; \x7d" = .error (.parseError 1) ∧
    parse "/**c*/ namespace N \x7b const x: A; \x7d" =
      .ok [.namespaceDecl 7 (some ⟨0, "COMMENT", "c"⟩) "N"
        [.variableDecl 21 (some ⟨0, "COMMENT", "c"⟩) "x" ⟨30, "A", none⟩]] := by
  refine ⟨by rfl, by rfl⟩

/-- C9: the two round-trip declarations parse exactly as claimed — a
TypeAlias named T whose type is Union(A, B), and a FunctionDeclaration f
with a non-variadic non-optional parameter x of type number, a variadic
non-optional parameter rest of type ARRAY(string), and return type void —
and a trailing question mark after a parameter name marks it optional,
independently of the leading-dots variadic marker: parameters a (optional,
non-variadic) and b (optional AND variadic) exhibit the remaining flag
combinations, so both flags default to false and vary independently. -/
theorem declaration_round_trip :
    parse "type T = A | B;" =
      .ok [.typeAlias 0 none "T" ⟨9, "Union", some [⟨9, "A", none⟩, ⟨13, "B", none⟩]⟩] ∧
    parse "function f(x: number, ...rest: string[]): void;" =
      .ok [.functionDecl 0 none "f"
        [⟨11, false, "x", false, ⟨14, "number", none⟩⟩,
         ⟨22, true, "rest", false, ⟨31, "ARRAY", some [⟨31, "string", none⟩]⟩⟩]
        ⟨42, "void", none⟩] ∧
    parse "function g(a?: A, ...b?: B): void;" =
      .ok [.functionDecl 0 none "g"
        [⟨11, false, "a", true, ⟨15, "A", none⟩⟩,
         ⟨18, true, "b", true, ⟨25, "B", none⟩⟩]
        ⟨29, "void", none⟩] := by
  refine ⟨by rfl, by rfl, by rfl⟩

/-- C10: an atomic operand whose raw name is literally Union (args absent)
is treated by the flattening as an empty Union and dropped from the
result: parsing a type alias of Union-bar-A yields a Union node with the
single arg A, and symmetrically an atomic Intersect under the ampersand
operator is dropped. -/
theorem atomic_union_name_flattening :
    parse "type T = Union | A;" =
      .ok [.typeAlias 0 none "T" ⟨9, "Union", some [⟨17, "A", none⟩]⟩] ∧
    parse "type T = Intersect & A;" =
      .ok [.typeAlias 0 none "T" ⟨9, "Intersect", some [⟨21, "A", none⟩]⟩] := by
  refine ⟨by rfl, by rfl⟩
